import Mathlib

/-!
Verification of the mixing-matrix / constraint-vector core of the Skyclean
repository (`src/skyclean/silc/mixing_matrix_constraint.py`).

Shallow embedding conventions:
* Python floats are modelled as real numbers (`ℝ`).
* A numpy 1-D array is a `List ℝ`; a 2-D matrix is a `PyMat`, a row count
  together with the list of its columns (the code assembles `F` by
  `np.column_stack` over columns, so the column list is the natural carrier;
  the explicit row count keeps the shape of a zero-column matrix).
* A Python exception is the `Except.error` case of an `Except` result.
  `find_f_from_names` raises `ValueError(f"{name} not in
  component_names={component_names}")`; that message is carried structurally
  as a `ComponentNotFoundError` holding exactly the two pieces of data the
  message interpolates: the offending name and the full list.
* `str.lower` is `pyLower`, mapping `Char.toLower` over the characters
  (all names in the repository are ASCII, where this is exactly Python's
  `str.lower`).
-/

namespace Skyclean

/-- Python's `str.lower`, modelled as lowercasing each character (exact for
the ASCII names used throughout the repository). -/
def pyLower (s : String) : String := ⟨s.data.map Char.toLower⟩

/-- The Python error raised by `find_f_from_names`: the message
`f"{name} not in component_names={component_names}"` carries the offending
name and the full available list. -/
structure ComponentNotFoundError where
  offending : String
  available : List String
deriving DecidableEq, Repr

/-- The `selected` argument of `find_f_from_names` (and the
`extract_comp_or_comps` argument of `find_f_from_extract_comp`) may be a
single string or a list of strings; the code normalises a single string `s`
to `[s]` via `isinstance(selected, (str, bytes))`. -/
inductive Selected where
  | one : String → Selected
  | many : List String → Selected

/-- The normalisation `if isinstance(selected, (str, bytes)): selected = [selected]`. -/
def Selected.toList : Selected → List String
  | .one s => [s]
  | .many l => l

/-- Python's `list.index` restricted to success/failure: the index of the
first occurrence of `key`, or `none` when absent (where `list.index` raises
`ValueError`). -/
def firstIdx (key : String) : List String → Option ℕ
  | [] => none
  | a :: l => if a = key then some 0 else (firstIdx key l).map (· + 1)

/-- The loop body of `find_f_from_names`: walk `selected`, look each
(lowercased) name up in `names_lower`, fail on a miss, and otherwise set the
matching entry of `f` to `1.0` and append the index — unless the index was
already recorded (`if idx not in idxs`). `component_names` is carried only
to reproduce the error payload. -/
def ffnGo (component_names names_lower : List String) (acc : List ℝ × List ℕ) :
    List String → Except ComponentNotFoundError (List ℝ × List ℕ)
  | [] => Except.ok acc
  | name :: rest =>
    match firstIdx (pyLower name) names_lower with
    | none => Except.error ⟨name, component_names⟩
    | some idx =>
      if idx ∈ acc.2 then ffnGo component_names names_lower acc rest
      else ffnGo component_names names_lower (acc.1.set idx 1, acc.2 ++ [idx]) rest

/-- `find_f_from_names(component_names, selected)` from
`mixing_matrix_constraint.py` lines 14–41: builds the 0/1 constraint vector
`f` (initially `np.zeros(len(component_names))`) and the list `idxs` of
matched column indices. -/
def find_f_from_names (component_names : List String) (selected : Selected) :
    Except ComponentNotFoundError (List ℝ × List ℕ) :=
  ffnGo component_names (component_names.map pyLower)
    (List.replicate component_names.length 0, []) selected.toList

example :
    find_f_from_names ["tsz", "cmb", "sync"] (.many ["CMB", "sync"]) =
      .ok ([0, 1, 1], [1, 2]) := by rfl

example :
    find_f_from_names ["cmb"] (.one "foo") = .error ⟨"foo", ["cmb"]⟩ := by rfl

example :
    find_f_from_names ["cmb", "CMB"] (.one "cMb") = .ok ([1, 0], [0]) := by rfl

/-! ### Properties of `firstIdx` (Python's `list.index`) -/

theorem firstIdx_eq_none_iff {key : String} {l : List String} :
    firstIdx key l = none ↔ key ∉ l := by
  induction l with
  | nil => simp [firstIdx]
  | cons a l ih =>
    by_cases ha : a = key
    · subst ha; simp [firstIdx]
    · rw [firstIdx, if_neg ha, Option.map_eq_none', ih]
      simp only [List.mem_cons]
      constructor
      · rintro h (hc | hc)
        · exact ha hc.symm
        · exact h hc
      · exact fun h hc => h (Or.inr hc)

theorem firstIdx_lt_length {key : String} {l : List String} {i : ℕ}
    (h : firstIdx key l = some i) : i < l.length := by
  induction l generalizing i with
  | nil => simp [firstIdx] at h
  | cons a l ih =>
    simp only [List.length_cons]
    by_cases ha : a = key
    · rw [firstIdx, if_pos ha] at h
      simp only [Option.some_inj] at h
      omega
    · rw [firstIdx, if_neg ha, Option.map_eq_some'] at h
      obtain ⟨j, hj, rfl⟩ := h
      have := ih hj
      omega

theorem firstIdx_getD {key : String} {l : List String} {i : ℕ}
    (h : firstIdx key l = some i) : l.getD i "" = key := by
  induction l generalizing i with
  | nil => simp [firstIdx] at h
  | cons a l ih =>
    by_cases ha : a = key
    · simp [firstIdx, ha] at h
      subst h
      simpa using ha
    · simp [firstIdx, ha] at h
      obtain ⟨j, hj, rfl⟩ := h
      simpa using ih hj

theorem firstIdx_min {key : String} {l : List String} {i : ℕ}
    (h : firstIdx key l = some i) : ∀ j, j < i → l.getD j "" ≠ key := by
  induction l generalizing i with
  | nil => simp [firstIdx] at h
  | cons a l ih =>
    by_cases ha : a = key
    · simp [firstIdx, ha] at h
      omega
    · simp [firstIdx, ha] at h
      obtain ⟨j', hj', rfl⟩ := h
      intro j hj
      cases j with
      | zero => simpa using ha
      | succ j => simpa using ih hj' j (by omega)

theorem firstIdx_of_nodup {l : List String} (hnd : l.Nodup) {i : ℕ}
    (hi : i < l.length) : firstIdx (l.getD i "") l = some i := by
  induction l generalizing i with
  | nil => simp at hi
  | cons a l ih =>
    cases i with
    | zero => simp [firstIdx]
    | succ i =>
      have hi' : i < l.length := by simpa using hi
      have hmem : l.getD i "" ∈ l := by
        rw [List.getD_eq_getElem _ _ hi']
        exact List.getElem_mem _
      have ha : a ≠ l.getD i "" := by
        intro hc
        exact ((List.nodup_cons.mp hnd).1) (hc ▸ hmem)
      simp only [List.getD_cons_succ, firstIdx, if_neg ha,
        ih (List.nodup_cons.mp hnd).2 hi']
      rfl

/-! ### Helpers about `List.set`, `getD` and sums -/

theorem getD_set_self {l : List ℝ} {i : ℕ} (h : i < l.length) (x : ℝ) :
    (l.set i x).getD i 0 = x := by
  rw [List.getD_eq_getElem _ _ (by simpa using h)]
  simp [List.getElem_set, h]

theorem getD_set_ne {l : List ℝ} {i j : ℕ} (h : i ≠ j) (x : ℝ) :
    (l.set i x).getD j 0 = l.getD j 0 := by
  by_cases hj : j < l.length
  · rw [List.getD_eq_getElem _ _ (by simpa using hj), List.getD_eq_getElem _ _ hj]
    simp [List.getElem_set, h]
  · rw [List.getD_eq_default _ _ (by simpa using Nat.le_of_not_lt hj),
      List.getD_eq_default _ _ (Nat.le_of_not_lt hj)]

theorem sum_set (l : List ℝ) : ∀ (i : ℕ), i < l.length → ∀ x : ℝ,
    (l.set i x).sum = l.sum - l.getD i 0 + x := by
  induction l with
  | nil => intro i hi; simp at hi
  | cons a l ih =>
    intro i hi x
    cases i with
    | zero => simp [List.sum_cons]; ring
    | succ i =>
      have hi' : i < l.length := by simpa using hi
      simp only [List.set_cons_succ, List.sum_cons, List.getD_cons_succ, ih i hi' x]
      ring

theorem getD_replicate_zero {n j : ℕ} : (List.replicate n (0 : ℝ)).getD j 0 = 0 := by
  by_cases hj : j < n
  · rw [List.getD_eq_getElem _ _ (by simpa using hj)]
    simp
  · exact List.getD_eq_default _ _ (by simpa using Nat.le_of_not_lt hj)

/-! ### Characterisation of the `find_f_from_names` loop -/

/-- One `if idx not in idxs: idxs.append(idx)` step. -/
def insertNew (a : List ℕ) (i : ℕ) : List ℕ := if i ∈ a then a else a ++ [i]

/-- Order-preserving first-occurrence deduplication, the effect of repeated
`insertNew` — used to state which index list `find_f_from_names` returns. -/
def firstDedup (l : List ℕ) : List ℕ := l.foldl insertNew []

theorem foldl_insertNew_mem (l : List ℕ) : ∀ (a0 : List ℕ) (m : ℕ),
    m ∈ l.foldl insertNew a0 ↔ m ∈ a0 ∨ m ∈ l := by
  induction l with
  | nil => simp
  | cons b l ih =>
    intro a0 m
    simp only [List.foldl_cons, ih, List.mem_cons]
    unfold insertNew
    by_cases hb : b ∈ a0
    · rw [if_pos hb]
      constructor
      · rintro (h | h)
        · exact Or.inl h
        · exact Or.inr (Or.inr h)
      · rintro (h | rfl | h)
        · exact Or.inl h
        · exact Or.inl hb
        · exact Or.inr h
    · rw [if_neg hb]
      simp only [List.mem_append, List.mem_singleton]
      tauto

theorem foldl_insertNew_nodup (l : List ℕ) : ∀ (a0 : List ℕ), a0.Nodup →
    (l.foldl insertNew a0).Nodup := by
  induction l with
  | nil => intro a0 h; simpa using h
  | cons b l ih =>
    intro a0 h
    simp only [List.foldl_cons]
    apply ih
    unfold insertNew
    by_cases hb : b ∈ a0
    · simpa [hb] using h
    · rw [if_neg hb]
      simp [List.nodup_append, h, hb]

theorem ffnGo_error_iff {cns nl : List String} (sel : List String) :
    ∀ acc, (∃ e, ffnGo cns nl acc sel = .error e) ↔
      ∃ nm ∈ sel, firstIdx (pyLower nm) nl = none := by
  induction sel with
  | nil => intro acc; simp [ffnGo]
  | cons nm rest ih =>
    intro acc
    cases hl : firstIdx (pyLower nm) nl with
    | none =>
      simp only [ffnGo, hl, List.mem_cons]
      exact ⟨fun _ => ⟨nm, Or.inl rfl, hl⟩, fun _ => ⟨⟨nm, cns⟩, rfl⟩⟩
    | some idx =>
      simp only [ffnGo, hl]
      by_cases hmem : idx ∈ acc.2
      · rw [if_pos hmem, ih]
        constructor
        · rintro ⟨nm', h1, h2⟩
          exact ⟨nm', List.mem_cons_of_mem _ h1, h2⟩
        · rintro ⟨nm', h1, h2⟩
          rcases List.mem_cons.mp h1 with rfl | h1
          · rw [hl] at h2; cases h2
          · exact ⟨nm', h1, h2⟩
      · rw [if_neg hmem, ih]
        constructor
        · rintro ⟨nm', h1, h2⟩
          exact ⟨nm', List.mem_cons_of_mem _ h1, h2⟩
        · rintro ⟨nm', h1, h2⟩
          rcases List.mem_cons.mp h1 with rfl | h1
          · rw [hl] at h2; cases h2
          · exact ⟨nm', h1, h2⟩

theorem ffnGo_error_payload {cns nl : List String} (sel : List String) :
    ∀ acc e, ffnGo cns nl acc sel = .error e →
      e.available = cns ∧ e.offending ∈ sel ∧
        firstIdx (pyLower e.offending) nl = none := by
  induction sel with
  | nil => intro acc e h; simp [ffnGo] at h
  | cons nm rest ih =>
    intro acc e h
    cases hl : firstIdx (pyLower nm) nl with
    | none =>
      simp only [ffnGo, hl] at h
      cases h
      exact ⟨rfl, List.mem_cons_self _ _, hl⟩
    | some idx =>
      simp only [ffnGo, hl] at h
      by_cases hmem : idx ∈ acc.2
      · rw [if_pos hmem] at h
        obtain ⟨h1, h2, h3⟩ := ih _ _ h
        exact ⟨h1, List.mem_cons_of_mem _ h2, h3⟩
      · rw [if_neg hmem] at h
        obtain ⟨h1, h2, h3⟩ := ih _ _ h
        exact ⟨h1, List.mem_cons_of_mem _ h2, h3⟩

theorem ffnGo_ok_lookup {cns nl : List String} {sel : List String}
    {acc r} (h : ffnGo cns nl acc sel = .ok r) :
    ∀ nm ∈ sel, ∃ i, firstIdx (pyLower nm) nl = some i := by
  intro nm hnm
  cases hl : firstIdx (pyLower nm) nl with
  | some i => exact ⟨i, rfl⟩
  | none =>
    obtain ⟨e, he⟩ := (ffnGo_error_iff sel acc).mpr ⟨nm, hnm, hl⟩
    rw [h] at he
    cases he

theorem ffnGo_ok_idxs {cns nl : List String} (sel : List String) :
    ∀ (acc : List ℝ × List ℕ) {f : List ℝ} {idxs : List ℕ},
      ffnGo cns nl acc sel = .ok (f, idxs) →
      idxs = (sel.filterMap
          (fun nm => firstIdx (pyLower nm) nl)).foldl insertNew acc.2 := by
  induction sel with
  | nil =>
    intro acc f idxs h
    simp only [ffnGo] at h
    cases h
    simp
  | cons nm rest ih =>
    intro acc f idxs h
    cases hl : firstIdx (pyLower nm) nl with
    | none => simp only [ffnGo, hl] at h; exact Except.noConfusion h
    | some idx =>
      simp only [ffnGo, hl] at h
      have hfm : List.filterMap (fun nm => firstIdx (pyLower nm) nl) (nm :: rest) =
          idx :: List.filterMap (fun nm => firstIdx (pyLower nm) nl) rest := by
        simp [List.filterMap_cons, hl]
      rw [hfm, List.foldl_cons]
      by_cases hmem : idx ∈ acc.2
      · rw [if_pos hmem] at h
        rw [ih acc h]
        simp [insertNew, hmem]
      · rw [if_neg hmem] at h
        rw [ih _ h]
        simp [insertNew, hmem]

/-- Loop invariant of `find_f_from_names`: `f` has fixed length `n`, its
entries are exactly the 0/1 indicator of the (duplicate-free, in-range)
index list `idxs`, and its sum counts `idxs`. -/
def FfnInv (n : ℕ) (acc : List ℝ × List ℕ) : Prop :=
  acc.1.length = n ∧ acc.2.Nodup ∧ (∀ i ∈ acc.2, i < n) ∧
    (∀ j, acc.1.getD j 0 = if j ∈ acc.2 then 1 else 0) ∧
    acc.1.sum = (acc.2.length : ℝ)

theorem ffnInv_init (n : ℕ) : FfnInv n (List.replicate n 0, []) := by
  refine ⟨by simp, by simp, by simp, ?_, by simp⟩
  intro j
  simp [getD_replicate_zero]

theorem ffnGo_ok_inv {cns nl : List String} {n : ℕ} (hn : nl.length = n)
    (sel : List String) :
    ∀ acc, FfnInv n acc → ∀ {f : List ℝ} {idxs : List ℕ},
      ffnGo cns nl acc sel = .ok (f, idxs) → FfnInv n (f, idxs) := by
  induction sel with
  | nil =>
    intro acc hInv f idxs h
    simp only [ffnGo] at h
    cases h
    exact hInv
  | cons nm rest ih =>
    intro acc hInv f idxs h
    cases hl : firstIdx (pyLower nm) nl with
    | none => simp only [ffnGo, hl] at h; exact Except.noConfusion h
    | some idx =>
      simp only [ffnGo, hl] at h
      by_cases hmem : idx ∈ acc.2
      · rw [if_pos hmem] at h
        exact ih acc hInv h
      · rw [if_neg hmem] at h
        apply ih _ _ h
        obtain ⟨hlen, hnd, hlt, hget, hsum⟩ := hInv
        have hidx : idx < n := hn ▸ firstIdx_lt_length hl
        have hidx' : idx < acc.1.length := hlen ▸ hidx
        refine ⟨by simpa using hlen, ?_, ?_, ?_, ?_⟩
        · simp [List.nodup_append, hnd, hmem]
        · intro i hi
          rcases List.mem_append.mp hi with hi | hi
          · exact hlt i hi
          · rw [List.mem_singleton] at hi
            omega
        · intro j
          by_cases hj : j = idx
          · subst hj
            rw [getD_set_self hidx']
            simp
          · rw [getD_set_ne (fun hc => hj hc.symm), hget j]
            have : (j ∈ acc.2 ++ [idx]) ↔ j ∈ acc.2 := by
              simp [List.mem_append, hj]
            simp only [this]
        · rw [sum_set _ idx hidx' 1, hget idx, if_neg hmem, hsum]
          simp only [List.length_append, List.length_singleton]
          push_cast
          ring

/-- Combined success characterisation of `find_f_from_names`. -/
theorem find_f_ok_spec {cns : List String} {sel : Selected}
    {f : List ℝ} {idxs : List ℕ}
    (h : find_f_from_names cns sel = .ok (f, idxs)) :
    f.length = cns.length ∧ idxs.Nodup ∧ (∀ i ∈ idxs, i < cns.length) ∧
      (∀ j, f.getD j 0 = if j ∈ idxs then 1 else 0) ∧
      f.sum = (idxs.length : ℝ) ∧
      (∀ m, m ∈ idxs ↔ ∃ nm ∈ sel.toList,
        firstIdx (pyLower nm) (cns.map pyLower) = some m) ∧
      idxs = firstDedup (sel.toList.filterMap
        (fun nm => firstIdx (pyLower nm) (cns.map pyLower))) := by
  have hn : (cns.map pyLower).length = cns.length := List.length_map _ _
  have hInv := ffnGo_ok_inv hn sel.toList _ (ffnInv_init cns.length) h
  obtain ⟨h1, h2, h3, h4, h5⟩ := hInv
  have hidxs := ffnGo_ok_idxs sel.toList _ h
  refine ⟨h1, h2, h3, h4, h5, ?_, hidxs⟩
  intro m
  rw [hidxs, foldl_insertNew_mem]
  simp only [List.not_mem_nil, false_or, List.mem_filterMap]

theorem except_bind_ok {α β γ : Type} (a : β) (g : β → Except α γ) :
    Except.bind (Except.ok a) g = g a := rfl

theorem except_bind_error {α β γ : Type} (e : α) (g : β → Except α γ) :
    Except.bind (Except.error e) g = Except.error e := rfl

theorem ffnGo_append {cns nl : List String} (u : List String) :
    ∀ (v : List String) (acc : List ℝ × List ℕ),
      ffnGo cns nl acc (u ++ v) =
        Except.bind (ffnGo cns nl acc u) (fun a => ffnGo cns nl a v) := by
  induction u with
  | nil => intro v acc; rfl
  | cons nm rest ih =>
    intro v acc
    cases hl : firstIdx (pyLower nm) nl with
    | none => simp only [List.cons_append, ffnGo, hl, except_bind_error]
    | some idx =>
      simp only [List.cons_append, ffnGo, hl]
      by_cases hmem : idx ∈ acc.2
      · simp only [if_pos hmem]
        exact ih v acc
      · simp only [if_neg hmem]
        exact ih v _

theorem ffnGo_skip {cns nl : List String} {nm : String} {acc : List ℝ × List ℕ}
    {idx : ℕ} (hl : firstIdx (pyLower nm) nl = some idx) (hmem : idx ∈ acc.2)
    (rest : List String) :
    ffnGo cns nl acc (nm :: rest) = ffnGo cns nl acc rest := by
  simp only [ffnGo, hl, if_pos hmem]

theorem ffnGo_ok_mem_of_elem {cns nl : List String} {u : List String}
    {acc a} (h : ffnGo cns nl acc u = .ok a) {nm : String} {idx : ℕ}
    (hnm : nm ∈ u) (hl : firstIdx (pyLower nm) nl = some idx) : idx ∈ a.2 := by
  obtain ⟨f, idxs⟩ := a
  have hidxs := ffnGo_ok_idxs u acc h
  show idx ∈ idxs
  rw [hidxs, foldl_insertNew_mem]
  exact Or.inr (List.mem_filterMap.mpr ⟨nm, hnm, hl⟩)

theorem filterMap_eq_map_of_some {g : String → Option ℕ} (l : List String)
    (hall : ∀ nm ∈ l, ∃ i, g nm = some i) :
    l.filterMap g = l.map (fun nm => (g nm).getD 0) := by
  revert hall
  induction l with
  | nil => intro _; rfl
  | cons nm rest ih =>
    intro hall
    obtain ⟨i, hi⟩ := hall nm (List.mem_cons_self _ _)
    have hfm : List.filterMap g (nm :: rest) = i :: List.filterMap g rest := by
      simp [List.filterMap_cons, hi]
    rw [hfm, List.map_cons, ih (fun nm' h' => hall nm' (List.mem_cons_of_mem _ h')),
      hi]
    rfl

theorem getD_map_pyLower {cns : List String} {i : ℕ} (h : i < cns.length) :
    (cns.map pyLower).getD i "" = pyLower (cns.getD i "") := by
  rw [List.getD_eq_getElem _ _ (by simpa using h), List.getElem_map,
    List.getD_eq_getElem _ _ h]

/-- Under case-insensitive uniqueness of the column names, membership of `m`
in the matched index list is exactly “the lowered name at position `m` was
selected (lowered)”. -/
theorem firstIdx_some_iff_of_nodup {cns : List String}
    (hnd : (cns.map pyLower).Nodup) {key : String} {m : ℕ} :
    firstIdx key (cns.map pyLower) = some m ↔
      m < cns.length ∧ (cns.map pyLower).getD m "" = key := by
  constructor
  · intro h
    exact ⟨by simpa using firstIdx_lt_length h, firstIdx_getD h⟩
  · rintro ⟨hm, hkey⟩
    have := @firstIdx_of_nodup (cns.map pyLower) hnd m (by simpa using hm)
    rwa [hkey] at this

/-- Cardinality of the matched index set: one index per case-insensitively
distinct selected name. -/
theorem idxs_length_eq_dedup {cns : List String}
    {sel : List String} (hsel : ∀ nm ∈ sel, pyLower nm ∈ cns.map pyLower)
    {idxs : List ℕ} (hidxsNd : idxs.Nodup)
    (hmem : ∀ m, m ∈ idxs ↔
      ∃ nm ∈ sel, firstIdx (pyLower nm) (cns.map pyLower) = some m) :
    idxs.length = ((sel.map pyLower).dedup).length := by
  classical
  set nl := cns.map pyLower with hnl
  set φ : String → ℕ := fun k => (firstIdx k nl).getD 0 with hφ
  have hsome : ∀ k ∈ sel.map pyLower, firstIdx k nl = some (φ k) := by
    intro k hk
    obtain ⟨nm, hnm, rfl⟩ := List.mem_map.mp hk
    cases hfi : firstIdx (pyLower nm) nl with
    | none =>
      rw [firstIdx_eq_none_iff] at hfi
      exact absurd (hsel nm hnm) hfi
    | some i => simp [hφ, hfi]
  have himage : idxs.toFinset = (sel.map pyLower).toFinset.image φ := by
    ext m
    rw [List.mem_toFinset, Finset.mem_image, hmem]
    constructor
    · rintro ⟨nm, hnm, hfi⟩
      refine ⟨pyLower nm, List.mem_toFinset.mpr (List.mem_map_of_mem _ hnm), ?_⟩
      simp [hφ, hfi]
    · rintro ⟨k, hk, rfl⟩
      obtain ⟨nm, hnm, rfl⟩ := List.mem_map.mp (List.mem_toFinset.mp hk)
      exact ⟨nm, hnm, hsome _ (List.mem_map_of_mem _ hnm)⟩
  have hinj : Set.InjOn φ ((sel.map pyLower).toFinset : Set String) := by
    intro k1 hk1 k2 hk2 heq
    have h1 := hsome k1 (List.mem_toFinset.mp hk1)
    have h2 := hsome k2 (List.mem_toFinset.mp hk2)
    have hg1 := firstIdx_getD h1
    have hg2 := firstIdx_getD h2
    rw [heq] at hg1
    exact hg1.symm.trans hg2
  calc idxs.length = idxs.toFinset.card :=
        (List.toFinset_card_of_nodup hidxsNd).symm
    _ = ((sel.map pyLower).toFinset.image φ).card := by rw [himage]
    _ = (sel.map pyLower).toFinset.card := Finset.card_image_of_injOn hinj
    _ = ((sel.map pyLower).dedup).length := List.card_toFinset _

theorem find_f_isOk {cns : List String} {sel : Selected}
    (hsel : ∀ nm ∈ sel.toList, pyLower nm ∈ cns.map pyLower) :
    ∃ f idxs, find_f_from_names cns sel = .ok (f, idxs) := by
  cases hres : find_f_from_names cns sel with
  | ok r =>
    obtain ⟨f0, i0⟩ := r
    exact ⟨f0, i0, rfl⟩
  | error e =>
    obtain ⟨_, h2, h3⟩ := ffnGo_error_payload sel.toList _ _ hres
    rw [firstIdx_eq_none_iff] at h3
    exact absurd (hsel _ h2) h3

/-! ### Claims about `find_f_from_names` -/

/-- C1 (amended): for case-insensitively unique `component_names` and a
selection whose every name occurs case-insensitively among them,
`find_f_from_names` succeeds; `f` has length `len(component_names)`;
`f[i] = 1` iff `component_names[i]` matches (case-insensitively) some
selected name, and is `0` otherwise; `sum(f)` equals the number of
*case-insensitively* distinct selected names (the original claim's
"distinct selected names" fails when the selection repeats a name with
different capitalisation — see the counterexample); and the returned index
list is the first-occurrence deduplication of the matched column indices in
the order the names were selected. -/
theorem claim_C1_amended (cns sel : List String)
    (hnd : (cns.map pyLower).Nodup)
    (hsel : ∀ nm ∈ sel, pyLower nm ∈ cns.map pyLower) :
    ∃ f idxs, find_f_from_names cns (.many sel) = .ok (f, idxs) ∧
      f.length = cns.length ∧
      (∀ i, i < cns.length →
        ((f.getD i 0 = 1 ↔ pyLower (cns.getD i "") ∈ sel.map pyLower) ∧
         (f.getD i 0 = 1 ∨ f.getD i 0 = 0))) ∧
      f.sum = (((sel.map pyLower).dedup).length : ℝ) ∧
      idxs = firstDedup (sel.map
        (fun nm => (firstIdx (pyLower nm) (cns.map pyLower)).getD 0)) := by
  obtain ⟨f, idxs, hok⟩ := @find_f_isOk cns (.many sel) hsel
  obtain ⟨hlen, hnodup, hlt, hget, hsum, hmem, hidxs⟩ := find_f_ok_spec hok
  refine ⟨f, idxs, hok, hlen, ?_, ?_, ?_⟩
  · intro i hi
    have hiff : i ∈ idxs ↔ pyLower (cns.getD i "") ∈ sel.map pyLower := by
      rw [hmem i]
      constructor
      · rintro ⟨nm, hnm, hfi⟩
        have hg := firstIdx_getD hfi
        rw [getD_map_pyLower hi] at hg
        rw [hg]
        exact List.mem_map_of_mem _ hnm
      · intro hkey
        obtain ⟨nm, hnm, hknm⟩ := List.mem_map.mp hkey
        refine ⟨nm, hnm, ?_⟩
        rw [firstIdx_some_iff_of_nodup hnd]
        exact ⟨hi, by rw [getD_map_pyLower hi, hknm]⟩
    constructor
    · rw [hget i]
      by_cases hii : i ∈ idxs
      · rw [if_pos hii]
        exact iff_of_true rfl (hiff.mp hii)
      · rw [if_neg hii]
        constructor
        · intro h01
          exact absurd h01 (by norm_num)
        · intro hk
          exact absurd (hiff.mpr hk) hii
    · rw [hget i]
      by_cases hii : i ∈ idxs
      · rw [if_pos hii]; exact Or.inl rfl
      · rw [if_neg hii]; exact Or.inr rfl
  · rw [hsum, idxs_length_eq_dedup hsel hnodup hmem]
  · have hall : ∀ nm ∈ sel, ∃ k,
        firstIdx (pyLower nm) (cns.map pyLower) = some k :=
      fun nm hnm => ffnGo_ok_lookup hok nm hnm
    rw [hidxs]
    exact congrArg firstDedup (filterMap_eq_map_of_some sel hall)

/-- Witness for C1 (amended) at a concrete input. -/
theorem claim_C1_amended_witness :
    ∃ f idxs, find_f_from_names ["cmb", "tsz"] (.many ["TSZ"]) = .ok (f, idxs) ∧
      f.length = (["cmb", "tsz"] : List String).length ∧
      (∀ i, i < (["cmb", "tsz"] : List String).length →
        ((f.getD i 0 = 1 ↔
            pyLower ((["cmb", "tsz"] : List String).getD i "") ∈
              (["TSZ"] : List String).map pyLower) ∧
         (f.getD i 0 = 1 ∨ f.getD i 0 = 0))) ∧
      f.sum = ((((["TSZ"] : List String).map pyLower).dedup).length : ℝ) ∧
      idxs = firstDedup ((["TSZ"] : List String).map
        (fun nm =>
          (firstIdx (pyLower nm) ((["cmb", "tsz"] : List String).map pyLower)).getD 0)) :=
  claim_C1_amended ["cmb", "tsz"] ["TSZ"] (by decide) (by decide)

/-- Counterexample to C1 as stated: `component_names = ["cmb"]`,
`selected = ["CMB", "cmb"]` satisfies the claim's preconditions (unique
names, every selected name occurs case-insensitively), yet
`sum(f) = 1` while the number of distinct selected names is `2`. -/
theorem claim_C1_counterexample :
    ((["cmb"] : List String).map pyLower).Nodup ∧
    (∀ nm ∈ (["CMB", "cmb"] : List String), pyLower nm ∈ (["cmb"] : List String).map pyLower) ∧
    find_f_from_names ["cmb"] (.many ["CMB", "cmb"]) = .ok ([1], [0]) ∧
    (["CMB", "cmb"] : List String).dedup.length = 2 ∧
    ([(1 : ℝ)].sum ≠ 2) := by
  refine ⟨by decide, by decide, by rfl, by decide, ?_⟩
  norm_num

/-- C7: `find_f_from_names` raises iff some selected name has no
case-insensitive match, and the error payload carries the offending name
and the full list of component names. -/
theorem claim_C7 (cns : List String) (sel : Selected) :
    ((∃ e, find_f_from_names cns sel = .error e) ↔
      ∃ nm ∈ sel.toList, pyLower nm ∉ cns.map pyLower) ∧
    (∀ e, find_f_from_names cns sel = .error e →
      e.offending ∈ sel.toList ∧ pyLower e.offending ∉ cns.map pyLower ∧
        e.available = cns) := by
  constructor
  · constructor
    · rintro ⟨e, he⟩
      obtain ⟨_, h2, h3⟩ := ffnGo_error_payload sel.toList _ _ he
      exact ⟨e.offending, h2, firstIdx_eq_none_iff.mp h3⟩
    · rintro ⟨nm, hnm, hmem⟩
      cases hres : find_f_from_names cns sel with
      | error e => exact ⟨e, rfl⟩
      | ok r =>
        obtain ⟨k, hk⟩ := ffnGo_ok_lookup hres nm hnm
        rw [firstIdx_eq_none_iff.mpr hmem] at hk
        exact Option.noConfusion hk
  · intro e he
    obtain ⟨h1, h2, h3⟩ := ffnGo_error_payload sel.toList _ _ he
    exact ⟨h2, firstIdx_eq_none_iff.mp h3, h1⟩

/-- Witness for C7 at a concrete input. -/
theorem claim_C7_witness :
    find_f_from_names ["cmb", "tsz"] (.one "dust") =
      .error ⟨"dust", ["cmb", "tsz"]⟩ ∧
    "dust" ∈ (Selected.one "dust").toList ∧
    pyLower "dust" ∉ (["cmb", "tsz"] : List String).map pyLower ∧
    (⟨"dust", ["cmb", "tsz"]⟩ : ComponentNotFoundError).available = ["cmb", "tsz"] := by
  have h := (claim_C7 ["cmb", "tsz"] (.one "dust")).2 ⟨"dust", ["cmb", "tsz"]⟩ (by rfl)
  exact ⟨by rfl, h.1, h.2.1, h.2.2⟩

/-- C9: a selection listing the same name twice produces exactly the same
result (vector and index list, error included) as the selection with the
second occurrence removed. -/
theorem ffnGo_dup (cns nl : List String) (u : List String) (nm : String)
    (hnm : nm ∈ u) (v : List String) (acc : List ℝ × List ℕ) :
    ffnGo cns nl acc (u ++ nm :: v) = ffnGo cns nl acc (u ++ v) := by
  rw [ffnGo_append, ffnGo_append]
  cases hu : ffnGo cns nl acc u with
  | error e => rfl
  | ok a =>
    rw [except_bind_ok, except_bind_ok]
    obtain ⟨idx, hl⟩ := ffnGo_ok_lookup hu nm hnm
    exact ffnGo_skip hl (ffnGo_ok_mem_of_elem hu hnm hl) v

theorem claim_C9 (cns : List String) (nm : String) (l1 l2 l3 : List String) :
    find_f_from_names cns (.many (l1 ++ nm :: l2 ++ nm :: l3)) =
      find_f_from_names cns (.many (l1 ++ nm :: l2 ++ l3)) := by
  show ffnGo cns (cns.map pyLower) (List.replicate cns.length 0, [])
      (l1 ++ nm :: l2 ++ nm :: l3) =
    ffnGo cns (cns.map pyLower) (List.replicate cns.length 0, [])
      (l1 ++ nm :: l2 ++ l3)
  exact ffnGo_dup cns (cns.map pyLower) (l1 ++ nm :: l2) nm (by simp) l3 _

/-- C10: when the same lowered name occurs at positions `i < j` of
`component_names` and the call succeeds, the entry at the later duplicate
position `j` stays `0`, the returned index list has no repeated index, and
any selected name equal (case-insensitively) to that duplicate is marked at
an index before `j` (its first occurrence), where `f` is `1`. -/
theorem claim_C10 (cns : List String) (sel : Selected) (f : List ℝ) (idxs : List ℕ)
    (h : find_f_from_names cns sel = .ok (f, idxs))
    (i j : ℕ) (hij : i < j) (hjn : j < cns.length)
    (hdup : pyLower (cns.getD i "") = pyLower (cns.getD j "")) :
    f.getD j 0 = 0 ∧ idxs.Nodup ∧
      ∀ nm ∈ sel.toList, pyLower nm = pyLower (cns.getD j "") →
        ∃ k, k < j ∧ firstIdx (pyLower nm) (cns.map pyLower) = some k ∧
          f.getD k 0 = 1 := by
  obtain ⟨hlen, hnodup, hlt, hget, hsum, hmem, hidxs⟩ := find_f_ok_spec h
  have hin : i < cns.length := lt_trans hij hjn
  have hj_not : j ∉ idxs := by
    intro hj
    obtain ⟨nm, hnm, hfi⟩ := (hmem j).mp hj
    have hkey := firstIdx_getD hfi
    apply firstIdx_min hfi i hij
    rw [getD_map_pyLower hin, hdup, ← getD_map_pyLower hjn, hkey]
  refine ⟨?_, hnodup, ?_⟩
  · rw [hget j, if_neg hj_not]
  · intro nm hnm hkeyeq
    obtain ⟨k, hk⟩ := ffnGo_ok_lookup h nm hnm
    have hkmem : k ∈ idxs := (hmem k).mpr ⟨nm, hnm, hk⟩
    have hkj : k < j := by
      by_contra hkge
      push_neg at hkge
      have hik : i < k := lt_of_lt_of_le hij hkge
      apply firstIdx_min hk i hik
      rw [getD_map_pyLower hin, hdup, ← hkeyeq]
    exact ⟨k, hkj, hk, by rw [hget k, if_pos hkmem]⟩

/-- Witness for C10 at a concrete input. -/
theorem claim_C10_witness :
    ([(1 : ℝ), 0].getD 1 0 = 0) ∧ ([0] : List ℕ).Nodup ∧
      (∀ nm ∈ (Selected.one "Cmb").toList,
        pyLower nm = pyLower ((["cmb", "CMB"] : List String).getD 1 "") →
        ∃ k, k < 1 ∧
          firstIdx (pyLower nm) ((["cmb", "CMB"] : List String).map pyLower) = some k ∧
          [(1 : ℝ), 0].getD k 0 = 1) :=
  claim_C10 ["cmb", "CMB"] (.one "Cmb") [1, 0] [0] (by rfl) 0 1
    (by norm_num) (by decide) (by decide)

/-! ### The `SpectralVector` builders -/

/-- A numpy 2-D array in column form: `np.column_stack` output, keeping the
explicit row count so that the zero-column matrix `np.zeros((n, 0))` retains
its shape. -/
structure PyMat where
  nrows : ℕ
  cols : List (List ℝ)

/-- The 4-tuple `(F, F_cols, reference_vectors, frequencies_out)` returned
by both builders; the `reference_vectors` dict is an insertion-ordered
association list. -/
structure BuildResult where
  F : PyMat
  F_cols : List String
  reference_vectors : List (String × List ℝ)
  frequencies_out : List String

/-- The default 9 Planck-like channel tags of `build_F_theory`. -/
def default_frequencies : List String :=
  ["030", "044", "070", "100", "143", "217", "353", "545", "857"]

/-- Decimal digits to a natural number. -/
def digitsToNat (l : List Char) : ℕ :=
  l.foldl (fun n c => 10 * n + (c.toNat - 48)) 0

/-- Python `float(tag)` on the numeric frequency tags used by the
repository (e.g. `float("030") = 30.0`); non-digit tags (where `float`
raises) are out of scope. -/
def pyFloat (s : String) : ℝ := (digitsToNat s.data : ℕ)

def planck_h : ℝ := 6.62607015e-34

def boltzmann_k : ℝ := 1.380649e-23

def t_cmb : ℝ := 2.7255

def default_beta_s : ℝ := -3.1

def default_nu0 : ℝ := 30e9

/-- `x = h·ν/(k·T)`. -/
noncomputable def x_of (nu : ℝ) : ℝ := planck_h * nu / (boltzmann_k * t_cmb)

/-- Thermodynamic K_CMB conversion `g(ν) = x²·eˣ/(eˣ−1)²`. -/
noncomputable def g_nu (nu : ℝ) : ℝ :=
  (x_of nu ^ 2 * Real.exp (x_of nu)) / (Real.exp (x_of nu) - 1) ^ 2

/-- tSZ raw response `x·(eˣ+1)/(eˣ−1) − 4`. -/
noncomputable def tsz_response (nu : ℝ) : ℝ :=
  x_of nu * ((Real.exp (x_of nu) + 1) / (Real.exp (x_of nu) - 1)) - 4

/-- Synchrotron raw response `(ν/ν0)^βₛ / g(ν)` (real power). -/
noncomputable def sync_response (beta_s nu0 nu : ℝ) : ℝ :=
  (nu / nu0) ^ beta_s / g_nu nu

/-- The `vecs` dict of `build_F_theory` as a lookup; Python `c in vecs` is
`(theory_vec …).isSome`. -/
noncomputable def theory_vec (beta_s nu0 : ℝ) (nus : List ℝ) (c : String) :
    Option (List ℝ) :=
  if c = "cmb" then some (nus.map (fun _ => 1))
  else if c = "tsz" then some (nus.map tsz_response)
  else if c = "sync" then some (nus.map (sync_response beta_s nu0))
  else none

/-- `nu = np.array([float(f) for f in frequencies]) * 1e9` with the default
channel list substituted when `frequencies is None`. -/
noncomputable def theory_nus (frequencies : Option (List String)) : List ℝ :=
  (frequencies.getD default_frequencies).map (fun f => pyFloat f * 1e9)

/-- Column-order selection of `build_F_theory` (lines 88–93): default order
when `components_order is None`, else the lowercased request filtered to
the supported keys, order preserved. -/
noncomputable def theory_F_cols (beta_s nu0 : ℝ) (nus : List ℝ)
    (components_order : Option (List String)) : List String :=
  match components_order with
  | none => ["cmb", "tsz", "sync"]
  | some co => (co.map pyLower).filter
      (fun c => (theory_vec beta_s nu0 nus c).isSome)

/-- `SpectralVector.build_F_theory`, lines 55–98: raw spectral responses in
K_CMB, column order per `theory_F_cols`; `F` is the column stack of
`reference_vectors[c]` for `c` in `F_cols` (the zero-column case keeps
shape `(len(nu), 0)`). -/
noncomputable def build_F_theory (beta_s nu0 : ℝ)
    (frequencies : Option (List String))
    (components_order : Option (List String)) : BuildResult :=
  ⟨⟨(theory_nus frequencies).length,
      (theory_F_cols beta_s nu0 (theory_nus frequencies) components_order).map
        (fun c => (theory_vec beta_s nu0 (theory_nus frequencies) c).getD [])⟩,
    theory_F_cols beta_s nu0 (theory_nus frequencies) components_order,
    (theory_F_cols beta_s nu0 (theory_nus frequencies) components_order).map
      (fun c => (c, (theory_vec beta_s nu0 (theory_nus frequencies) c).getD [])),
    frequencies.getD default_frequencies⟩

/-- The world outside `build_F_empirical`: `os.path.exists`, and the masked
mean `_mean(path, mask)` of a map file (healpy I/O is external to the
repository; the mean is an oracle indexed by the map path and the
`mask_path` of the call, covering both the masked and unmasked branches). -/
structure FileSystem where
  pathExists : String → Bool
  meanAt : String → String → ℝ

/-- `os.path.join(base, rel)` for the relative template paths the
repository produces. -/
def pathJoin (base rel : String) : String := base ++ "/" ++ rel

/-- A `file_templates` value: the formatting
`tmpl.format(frequency=f, realisation=r)` abstracted as a function of the
frequency tag and the realisation index. -/
def Tmpl : Type := String → ℕ → String

/-- Python's falsy coercion `(components_order or default)` at line 132:
both `None` and the empty list fall back to `["cmb","tsz","sync"]` (a
non-empty list is truthy and is used as given). -/
def empirical_wanted : Option (List String) → List String
  | none => ["cmb", "tsz", "sync"]
  | some [] => ["cmb", "tsz", "sync"]
  | some co => co

/-- Column-order selection of `build_F_empirical` (lines 130–133): the
lowercased request (with the falsy-coerced default, see
`empirical_wanted`) filtered to components with a non-`None` template
entry, order preserved. -/
def empirical_F_cols (file_templates : List (String × Option Tmpl))
    (components_order : Option (List String)) : List String :=
  ((empirical_wanted components_order).map pyLower).filter
    (fun c => match file_templates.lookup c with
      | some (some _) => true
      | _ => false)

/-- The per-component vector of `build_F_empirical` (lines 137–145): one
entry per frequency, the masked mean when the resolved path exists and
`0.0` otherwise (`np.nan_to_num` is the identity in the real-number
model). The no-template fallback is unreachable for `comp ∈ F_cols`. -/
def empirical_vec (fs : FileSystem) (base_dir : String)
    (file_templates : List (String × Option Tmpl)) (frequencies : List String)
    (realization : ℕ) (mask_path : String) (comp : String) : List ℝ :=
  match file_templates.lookup comp with
  | some (some tmpl) =>
    frequencies.map (fun f =>
      if fs.pathExists (pathJoin base_dir (tmpl f realization)) then
        fs.meanAt (pathJoin base_dir (tmpl f realization)) mask_path
      else 0)
  | _ => List.replicate frequencies.length 0

/-- `SpectralVector.build_F_empirical`, lines 100–149: raises
`ValueError("No valid components in file_templates for empirical F.")`
when no requested component has a template, otherwise the column stack of
per-component masked-mean vectors. -/
def build_F_empirical (fs : FileSystem) (base_dir : String)
    (file_templates : List (String × Option Tmpl))
    (frequencies : List String) (realization : ℕ) (mask_path : String)
    (components_order : Option (List String)) : Except String BuildResult :=
  if empirical_F_cols file_templates components_order = [] then
    .error "No valid components in file_templates for empirical F."
  else
    .ok ⟨⟨frequencies.length,
        (empirical_F_cols file_templates components_order).map
          (empirical_vec fs base_dir file_templates frequencies realization mask_path)⟩,
      empirical_F_cols file_templates components_order,
      (empirical_F_cols file_templates components_order).map
        (fun c => (c, empirical_vec fs base_dir file_templates frequencies
          realization mask_path c)),
      frequencies⟩

/-- The keyword arguments `get_F` forwards to `build_F_theory`. -/
structure TheoryArgs where
  beta_s : ℝ
  nu0 : ℝ
  frequencies : Option (List String)
  components_order : Option (List String)

/-- The keyword arguments `get_F` forwards to `build_F_empirical`. -/
structure EmpiricalArgs where
  base_dir : String
  file_templates : List (String × Option Tmpl)
  frequencies : List String
  realization : ℕ
  mask_path : String
  components_order : Option (List String)

/-- The exact message of the `ValueError` raised by `get_F` on an unknown
`source` (line 162). -/
def unknown_source_msg : String :=
  "source must be \x27theory\x27 or \x27empirical\x27."

/-- `SpectralVector.get_F`, lines 151–162: dispatch on the `source`
string, forwarding the other keyword arguments unchanged. -/
noncomputable def get_F (fs : FileSystem) (source : String)
    (ta : TheoryArgs) (ea : EmpiricalArgs) : Except String BuildResult :=
  if source = "theory" then
    .ok (build_F_theory ta.beta_s ta.nu0 ta.frequencies ta.components_order)
  else if source = "empirical" then
    build_F_empirical fs ea.base_dir ea.file_templates ea.frequencies
      ea.realization ea.mask_path ea.components_order
  else
    .error unknown_source_msg

/-- `ILCConstraints.find_f_from_extract_comp`, lines 170–193: normalise the
selection to a list, align to `F_cols` when given and otherwise to the key
order of `reference_vectors`, and delegate to `find_f_from_names`,
returning only `f`. `F` itself is not consulted. -/
def find_f_from_extract_comp (F : PyMat) (extract_comp_or_comps : Selected)
    (reference_vectors : List (String × List ℝ))
    (F_cols : Option (List String)) : Except ComponentNotFoundError (List ℝ) :=
  (find_f_from_names (F_cols.getD (reference_vectors.map Prod.fst))
    (.many extract_comp_or_comps.toList)).map Prod.fst

/-! ### Claims about `build_F_theory` -/

theorem theory_vec_isSome_iff (beta_s nu0 : ℝ) (nus : List ℝ) (c : String) :
    (theory_vec beta_s nu0 nus c).isSome =
      decide (c ∈ (["cmb", "tsz", "sync"] : List String)) := by
  unfold theory_vec
  by_cases h1 : c = "cmb"
  · simp [h1]
  · by_cases h2 : c = "tsz"
    · simp [h2]
    · by_cases h3 : c = "sync"
      · simp [h3]
      · simp [h1, h2, h3]

/-- C2: the theory builder's `F_cols` is the lowercased request filtered to
the supported set `{"cmb","tsz","sync"}` in the caller's order (unknown
names silently dropped; the builder is a total function, so no error can be
raised), defaults to `["cmb","tsz","sync"]` when the argument is omitted,
and `F` always has shape `(len(frequencies), len(F_cols))` — in particular
a zero-column matrix with the full row count when no requested name is
supported. -/
theorem claim_C2 (beta_s nu0 : ℝ) (frequencies : Option (List String))
    (co : List String) :
    (build_F_theory beta_s nu0 frequencies (some co)).F_cols =
      (co.map pyLower).filter
        (fun c => decide (c ∈ (["cmb", "tsz", "sync"] : List String))) ∧
    (build_F_theory beta_s nu0 frequencies none).F_cols =
      ["cmb", "tsz", "sync"] ∧
    (∀ co' : Option (List String),
      (build_F_theory beta_s nu0 frequencies co').F.nrows =
        (frequencies.getD default_frequencies).length ∧
      (build_F_theory beta_s nu0 frequencies co').F.cols.length =
        (build_F_theory beta_s nu0 frequencies co').F_cols.length) := by
  refine ⟨?_, rfl, fun co' => ⟨?_, ?_⟩⟩
  · show theory_F_cols beta_s nu0 (theory_nus frequencies) (some co) = _
    unfold theory_F_cols
    exact List.filter_congr (fun c _ => theory_vec_isSome_iff beta_s nu0 _ c)
  · show (theory_nus frequencies).length = _
    unfold theory_nus
    exact List.length_map _ _
  · exact List.length_map _ _

theorem pyFloat_mul_pos {s : String} (h : 0 < digitsToNat s.data) :
    0 < pyFloat s * 1e9 := by
  have h0 : (0 : ℝ) < (digitsToNat s.data : ℕ) := by exact_mod_cast h
  exact mul_pos h0 (by norm_num)

theorem theory_nus_none_pos : ∀ nu ∈ theory_nus none, 0 < nu := by
  intro nu hnu
  simp only [theory_nus, Option.getD_none, default_frequencies, List.map_cons,
    List.map_nil, List.mem_cons, List.not_mem_nil, or_false] at hnu
  rcases hnu with rfl | rfl | rfl | rfl | rfl | rfl | rfl | rfl | rfl <;>
    exact pyFloat_mul_pos (by decide)

/-- For a positive frequency no denominator of the theory formulas
vanishes: `x > 0`, so `eˣ − 1 > 0` and `g(ν) > 0` — the real-number
rendering of "all entries are finite". -/
theorem theory_denoms (nu : ℝ) (h : 0 < nu) :
    0 < x_of nu ∧ Real.exp (x_of nu) - 1 ≠ 0 ∧ g_nu nu ≠ 0 := by
  have hx : 0 < x_of nu := by
    unfold x_of planck_h boltzmann_k t_cmb
    positivity
  have hexp : 1 < Real.exp (x_of nu) := Real.one_lt_exp_iff.mpr hx
  have hd : 0 < Real.exp (x_of nu) - 1 := sub_pos.mpr hexp
  refine ⟨hx, ne_of_gt hd, ?_⟩
  unfold g_nu
  exact ne_of_gt (div_pos (by positivity) (pow_pos hd 2))

/-- C3: `build_F_theory()` with default arguments returns a 9×3 matrix
whose `F_cols` is `["cmb","tsz","sync"]` and whose cmb column is exactly
`1.0` at every row; no denominator of the entry formulas vanishes at the
default frequencies (the real-number rendering of "all entries finite");
and with `components_order=["sync","cmb"]` the columns are the synchrotron
power law `(ν/ν0)^βₛ / g(ν)` and the all-ones cmb vector, in that order. -/
theorem claim_C3 :
    (build_F_theory default_beta_s default_nu0 none none).F.nrows = 9 ∧
    (build_F_theory default_beta_s default_nu0 none none).F.cols.length = 3 ∧
    (build_F_theory default_beta_s default_nu0 none none).F_cols =
      ["cmb", "tsz", "sync"] ∧
    (build_F_theory default_beta_s default_nu0 none none).F.cols.getD 0 [] =
      List.replicate 9 (1 : ℝ) ∧
    (∀ nu ∈ theory_nus none,
      0 < x_of nu ∧ Real.exp (x_of nu) - 1 ≠ 0 ∧ g_nu nu ≠ 0) ∧
    (build_F_theory default_beta_s default_nu0 none
        (some ["sync", "cmb"])).F_cols = ["sync", "cmb"] ∧
    (build_F_theory default_beta_s default_nu0 none
        (some ["sync", "cmb"])).F.cols.getD 0 [] =
      (theory_nus none).map
        (fun nu => (nu / default_nu0) ^ default_beta_s / g_nu nu) ∧
    (build_F_theory default_beta_s default_nu0 none
        (some ["sync", "cmb"])).F.cols.getD 1 [] = List.replicate 9 (1 : ℝ) := by
  refine ⟨rfl, rfl, rfl, rfl,
    fun nu hnu => theory_denoms nu (theory_nus_none_pos nu hnu), ?_, rfl, rfl⟩
  rfl

/-- Witness for C3: the membership hypothesis of the finiteness conjunct,
instantiated at the first default frequency. -/
theorem claim_C3_witness :
    0 < x_of (pyFloat "030" * 1e9) ∧
      Real.exp (x_of (pyFloat "030" * 1e9)) - 1 ≠ 0 ∧
      g_nu (pyFloat "030" * 1e9) ≠ 0 :=
  claim_C3.2.2.2.2.1 (pyFloat "030" * 1e9)
    (by simp [theory_nus, default_frequencies])

/-! ### Claims about `build_F_empirical`, `get_F` and the constraint builder -/

theorem getD_map' {α β : Type} (g : α → β) (dflt : β) (d0 : α)
    {l : List α} {j : ℕ} (h : j < l.length) :
    (l.map g).getD j dflt = g (l.getD j d0) := by
  rw [List.getD_eq_getElem _ _ (by simpa using h), List.getElem_map,
    List.getD_eq_getElem _ _ h]

theorem lookup_map_pair {β : Type} (v : String → β) (cols : List String) :
    ∀ c ∈ cols, (cols.map (fun c => (c, v c))).lookup c = some (v c) := by
  induction cols with
  | nil => intro c hc; cases hc
  | cons a rest ih =>
    intro c hc
    by_cases hac : c = a
    · subst hac
      simp [List.lookup]
    · rcases List.mem_cons.mp hc with rfl | hc
      · exact absurd rfl hac
      · have hb : (c == a) = false := beq_eq_false_iff_ne.mpr hac
        simpa [List.lookup, hb] using ih c hc

theorem theory_vec_length {beta_s nu0 : ℝ} {nus : List ℝ} {c : String}
    {v : List ℝ} (h : theory_vec beta_s nu0 nus c = some v) :
    v.length = nus.length := by
  unfold theory_vec at h
  split_ifs at h
  · cases h; simp
  · cases h; simp
  · cases h; simp

theorem theory_F_cols_mem_isSome {beta_s nu0 : ℝ} {nus : List ℝ}
    {co : Option (List String)} :
    ∀ c ∈ theory_F_cols beta_s nu0 nus co,
      ∃ v, theory_vec beta_s nu0 nus c = some v := by
  intro c hc
  cases co with
  | none =>
    simp only [theory_F_cols, List.mem_cons, List.not_mem_nil, or_false] at hc
    rcases hc with rfl | rfl | rfl <;> exact ⟨_, rfl⟩
  | some co' =>
    have := List.of_mem_filter hc
    exact Option.isSome_iff_exists.mp this

theorem empirical_F_cols_lookup {tmpls : List (String × Option Tmpl)}
    {co : Option (List String)} :
    ∀ c ∈ empirical_F_cols tmpls co, ∃ t, tmpls.lookup c = some (some t) := by
  intro c hc
  have hpred := List.of_mem_filter hc
  cases hl : tmpls.lookup c with
  | none => rw [hl] at hpred; simp at hpred
  | some o =>
    cases o with
    | none => rw [hl] at hpred; simp at hpred
    | some t => exact ⟨t, rfl⟩

theorem empirical_vec_length (fs : FileSystem) (base_dir : String)
    (tmpls : List (String × Option Tmpl)) (freqs : List String)
    (realization : ℕ) (mask_path : String) (c : String) :
    (empirical_vec fs base_dir tmpls freqs realization mask_path c).length =
      freqs.length := by
  unfold empirical_vec
  cases tmpls.lookup c with
  | none => simp
  | some o => cases o <;> simp

theorem empirical_vec_entry_zero (fs : FileSystem) (base_dir : String)
    (tmpls : List (String × Option Tmpl)) (freqs : List String)
    (realization : ℕ) (mask_path : String) {c : String} {t : Tmpl}
    (hl : tmpls.lookup c = some (some t)) {i : ℕ} (hi : i < freqs.length)
    (hmiss : fs.pathExists
      (pathJoin base_dir (t (freqs.getD i "") realization)) = false) :
    (empirical_vec fs base_dir tmpls freqs realization mask_path c).getD i 0
      = 0 := by
  unfold empirical_vec
  rw [hl]
  show (freqs.map _).getD i 0 = 0
  have hmiss' : ¬ (fs.pathExists
      (pathJoin base_dir (t (freqs.getD i "") realization)) = true) := by
    rw [hmiss]
    exact Bool.false_ne_true
  rw [getD_map' _ 0 "" hi, if_neg hmiss']

theorem empirical_vec_all_missing {fs : FileSystem}
    (hall : ∀ p, fs.pathExists p = false) (base_dir : String)
    (tmpls : List (String × Option Tmpl)) (freqs : List String)
    (realization : ℕ) (mask_path : String) (c : String) :
    empirical_vec fs base_dir tmpls freqs realization mask_path c =
      List.replicate freqs.length 0 := by
  unfold empirical_vec
  cases tmpls.lookup c with
  | none => rfl
  | some o =>
    cases o with
    | none => rfl
    | some t =>
      show freqs.map _ = _
      have hmap : ∀ f ∈ freqs,
          (if fs.pathExists (pathJoin base_dir (t f realization)) then
            fs.meanAt (pathJoin base_dir (t f realization)) mask_path
          else (0 : ℝ)) = 0 := by
        intro f _
        simp [hall]
      calc freqs.map _ = freqs.map (fun _ => (0 : ℝ)) :=
            List.map_congr_left hmap
        _ = List.replicate freqs.length 0 := List.map_const _ _

/-- C4: `build_F_empirical` fails (with the `NoValidComponentsError`
message) iff the intersection of the lowercased request — with Python's
falsy coercion `(components_order or default)`, so that an omitted *or
empty* request falls back to `["cmb","tsz","sync"]` — with the components
having a non-`None` template entry is empty; in particular an empty-list
request is treated exactly like the omitted one, not as an empty
intersection; on success each `(component, frequency)` entry whose
resolved map file does not exist is `0.0`, and a template resolving to no
existing file at all yields an all-zeros `F` of shape
`(len(frequencies), len(F_cols))`, not an exception. -/
theorem claim_C4 (fs : FileSystem) (base_dir : String)
    (tmpls : List (String × Option Tmpl)) (freqs : List String)
    (realization : ℕ) (mask_path : String) (co : Option (List String)) :
    ((∃ e, build_F_empirical fs base_dir tmpls freqs realization mask_path co
        = .error e) ↔ empirical_F_cols tmpls co = []) ∧
    (empirical_F_cols tmpls (some []) = empirical_F_cols tmpls none ∧
      build_F_empirical fs base_dir tmpls freqs realization mask_path
          (some []) =
        build_F_empirical fs base_dir tmpls freqs realization mask_path
          none) ∧
    (∀ r, build_F_empirical fs base_dir tmpls freqs realization mask_path co
        = .ok r →
      r.F_cols = empirical_F_cols tmpls co ∧
      r.F.nrows = freqs.length ∧
      r.F.cols.length = r.F_cols.length ∧
      (∀ j, j < r.F_cols.length →
        r.F.cols.getD j [] = empirical_vec fs base_dir tmpls freqs
          realization mask_path (r.F_cols.getD j ""))) ∧
    (∀ c t, tmpls.lookup c = some (some t) → ∀ i, i < freqs.length →
      fs.pathExists (pathJoin base_dir (t (freqs.getD i "") realization))
          = false →
      (empirical_vec fs base_dir tmpls freqs realization mask_path c).getD i 0
        = 0) ∧
    ((∀ p, fs.pathExists p = false) →
      ∀ r, build_F_empirical fs base_dir tmpls freqs realization mask_path co
          = .ok r →
        ∀ col ∈ r.F.cols, col = List.replicate freqs.length 0) := by
  refine ⟨?_, ⟨rfl, rfl⟩, ?_, ?_, ?_⟩
  · by_cases hc : empirical_F_cols tmpls co = []
    · simp [build_F_empirical, hc]
    · simp only [build_F_empirical, if_neg hc]
      constructor
      · rintro ⟨e, he⟩
        exact Except.noConfusion he
      · intro h
        exact absurd h hc
  · intro r hr
    by_cases hc : empirical_F_cols tmpls co = []
    · rw [build_F_empirical, if_pos hc] at hr
      exact Except.noConfusion hr
    · rw [build_F_empirical, if_neg hc] at hr
      cases hr
      refine ⟨rfl, rfl, List.length_map _ _, ?_⟩
      intro j hj
      exact getD_map' _ [] "" hj
  · intro c t hl i hi hmiss
    exact empirical_vec_entry_zero fs base_dir tmpls freqs realization
      mask_path hl hi hmiss
  · intro hall r hr col hcol
    by_cases hc : empirical_F_cols tmpls co = []
    · rw [build_F_empirical, if_pos hc] at hr
      exact Except.noConfusion hr
    · rw [build_F_empirical, if_neg hc] at hr
      cases hr
      obtain ⟨c, _, rfl⟩ := List.mem_map.mp hcol
      exact empirical_vec_all_missing hall base_dir tmpls freqs realization
        mask_path c

/-- Witness for C4 at a concrete input: one component with a template, a
file system where no path exists, and the *empty-list* `components_order`
that Python's falsy coercion `(components_order or default)` turns into
the default — the build succeeds (no `NoValidComponentsError`) with an
all-zeros 2×1 matrix. -/
theorem claim_C4_witness :
    build_F_empirical ⟨fun _ => false, fun _ _ => 0⟩ "base"
        [("cmb", some (fun f _ => f))] ["030", "044"] 0 "" (some []) =
      .ok ⟨⟨2, [[0, 0]]⟩, ["cmb"], [("cmb", [0, 0])], ["030", "044"]⟩ ∧
    ∀ col ∈ (PyMat.mk 2 [[(0 : ℝ), 0]]).cols,
      col = List.replicate (["030", "044"] : List String).length 0 := by
  refine ⟨by rfl, ?_⟩
  exact (claim_C4 ⟨fun _ => false, fun _ _ => 0⟩ "base"
      [("cmb", some (fun f _ => f))] ["030", "044"] 0 "" (some [])).2.2.2.2
    (fun _ => rfl) _ (by rfl)

/-- C5 (amended): `get_F` dispatches exactly to `build_F_theory` for
`source = "theory"` and to `build_F_empirical` for `source = "empirical"`,
forwarding all other parameters unchanged; every other value fails with
the fixed `ValueError` message "source must be \x27theory\x27 or
\x27empirical\x27.", which names the valid values but does not include the
supplied value (the original claim said the message mentions the invalid
value — see the counterexample). -/
theorem claim_C5_amended (fs : FileSystem) (ta : TheoryArgs)
    (ea : EmpiricalArgs) :
    get_F fs "theory" ta ea =
      .ok (build_F_theory ta.beta_s ta.nu0 ta.frequencies
        ta.components_order) ∧
    get_F fs "empirical" ta ea =
      build_F_empirical fs ea.base_dir ea.file_templates ea.frequencies
        ea.realization ea.mask_path ea.components_order ∧
    ∀ src, src ≠ "theory" → src ≠ "empirical" →
      get_F fs src ta ea = .error unknown_source_msg := by
  refine ⟨rfl, rfl, fun src h1 h2 => ?_⟩
  unfold get_F
  rw [if_neg h1, if_neg h2]

/-- Witness for C5 (amended) at the concrete unknown source "bogus". -/
theorem claim_C5_amended_witness :
    get_F ⟨fun _ => false, fun _ _ => 0⟩ "bogus" ⟨0, 0, none, none⟩
      ⟨"", [], [], 0, "", none⟩ = .error unknown_source_msg :=
  (claim_C5_amended ⟨fun _ => false, fun _ _ => 0⟩ ⟨0, 0, none, none⟩
    ⟨"", [], [], 0, "", none⟩).2.2 "bogus" (by decide) (by decide)

/-- Counterexample to C5 as stated: `get_F(source="bogus")` raises the
fixed message, and that message does not contain the supplied value
"bogus". -/
theorem claim_C5_counterexample :
    get_F ⟨fun _ => false, fun _ _ => 0⟩ "bogus" ⟨1, 1, none, none⟩
        ⟨"", [], [], 0, "", none⟩ = .error unknown_source_msg ∧
    ¬ ("bogus".data <:+: unknown_source_msg.data) :=
  ⟨by rfl, by decide⟩

/-- C6: `find_f_from_extract_comp` returns exactly the `f` component of
`find_f_from_names(F_cols, names)` when `F_cols` is supplied, and of
`find_f_from_names` applied to the key order of `reference_vectors` when
it is omitted (failures propagate identically); the list-normalised
selection agrees with the original. -/
theorem claim_C6 (F : PyMat) (ex : Selected)
    (rv : List (String × List ℝ)) (cols : List String) :
    find_f_from_extract_comp F ex rv (some cols) =
      (find_f_from_names cols (.many ex.toList)).map Prod.fst ∧
    find_f_from_extract_comp F ex rv none =
      (find_f_from_names (rv.map Prod.fst) (.many ex.toList)).map Prod.fst ∧
    find_f_from_names cols (.many ex.toList) = find_f_from_names cols ex :=
  ⟨rfl, rfl, rfl⟩

/-- C8: on every successful build (the theory builder is total; the
empirical one may fail), `F` has shape
`(len(frequencies_out), len(F_cols))`, and column `j` of `F` is exactly
`reference_vectors[F_cols[j]]`, a vector with one entry per frequency
channel. -/
theorem claim_C8 :
    (∀ (beta_s nu0 : ℝ) (freqs : Option (List String))
      (co : Option (List String)),
      (build_F_theory beta_s nu0 freqs co).F.nrows =
        (build_F_theory beta_s nu0 freqs co).frequencies_out.length ∧
      (build_F_theory beta_s nu0 freqs co).F.cols.length =
        (build_F_theory beta_s nu0 freqs co).F_cols.length ∧
      (∀ j, j < (build_F_theory beta_s nu0 freqs co).F_cols.length →
        (build_F_theory beta_s nu0 freqs co).reference_vectors.lookup
            ((build_F_theory beta_s nu0 freqs co).F_cols.getD j "") =
          some ((build_F_theory beta_s nu0 freqs co).F.cols.getD j []) ∧
        ((build_F_theory beta_s nu0 freqs co).F.cols.getD j []).length =
          (build_F_theory beta_s nu0 freqs co).frequencies_out.length)) ∧
    (∀ (fs : FileSystem) (base_dir : String)
      (tmpls : List (String × Option Tmpl)) (freqs : List String)
      (realization : ℕ) (mask_path : String) (co : Option (List String))
      (r : BuildResult),
      build_F_empirical fs base_dir tmpls freqs realization mask_path co
          = .ok r →
      r.F.nrows = r.frequencies_out.length ∧
      r.F.cols.length = r.F_cols.length ∧
      (∀ j, j < r.F_cols.length →
        r.reference_vectors.lookup (r.F_cols.getD j "") =
          some (r.F.cols.getD j []) ∧
        (r.F.cols.getD j []).length = r.frequencies_out.length)) := by
  constructor
  · intro beta_s nu0 freqs co
    refine ⟨List.length_map _ _, List.length_map _ _, ?_⟩
    intro j hj
    have hj' : j < (theory_F_cols beta_s nu0 (theory_nus freqs) co).length := hj
    have hmem : (theory_F_cols beta_s nu0 (theory_nus freqs) co).getD j "" ∈
        theory_F_cols beta_s nu0 (theory_nus freqs) co := by
      rw [List.getD_eq_getElem _ _ hj']
      exact List.getElem_mem _
    obtain ⟨v, hv⟩ := theory_F_cols_mem_isSome _ hmem
    have hcol : (build_F_theory beta_s nu0 freqs co).F.cols.getD j [] =
        (theory_vec beta_s nu0 (theory_nus freqs)
          ((theory_F_cols beta_s nu0 (theory_nus freqs) co).getD j "")).getD [] :=
      getD_map' _ [] "" hj'
    constructor
    · rw [hcol]
      exact lookup_map_pair
        (fun c => (theory_vec beta_s nu0 (theory_nus freqs) c).getD []) _ _ hmem
    · rw [hcol, hv, Option.getD_some, theory_vec_length hv]
      show (theory_nus freqs).length = _
      exact List.length_map _ _
  · intro fs base_dir tmpls freqs realization mask_path co r hr
    by_cases hc : empirical_F_cols tmpls co = []
    · rw [build_F_empirical, if_pos hc] at hr
      exact Except.noConfusion hr
    · rw [build_F_empirical, if_neg hc] at hr
      cases hr
      refine ⟨rfl, List.length_map _ _, ?_⟩
      intro j hj
      have hj' : j < (empirical_F_cols tmpls co).length := hj
      have hmem : (empirical_F_cols tmpls co).getD j "" ∈
          empirical_F_cols tmpls co := by
        rw [List.getD_eq_getElem _ _ hj']
        exact List.getElem_mem _
      have hcol := getD_map'
        (empirical_vec fs base_dir tmpls freqs realization mask_path) [] "" hj'
      constructor
      · rw [hcol]
        exact lookup_map_pair
          (empirical_vec fs base_dir tmpls freqs realization mask_path) _ _ hmem
      · rw [hcol]
        exact empirical_vec_length fs base_dir tmpls freqs realization
          mask_path _

/-- Witness for C8: the empirical branch applied to a concrete successful
build. -/
theorem claim_C8_witness :
    (⟨⟨2, [[0, 0]]⟩, ["cmb"], [("cmb", [0, 0])],
        ["030", "044"]⟩ : BuildResult).F.nrows =
      (⟨⟨2, [[0, 0]]⟩, ["cmb"], [("cmb", [0, 0])],
        ["030", "044"]⟩ : BuildResult).frequencies_out.length ∧
    (⟨⟨2, [[0, 0]]⟩, ["cmb"], [("cmb", [0, 0])],
        ["030", "044"]⟩ : BuildResult).F.cols.length =
      (⟨⟨2, [[0, 0]]⟩, ["cmb"], [("cmb", [0, 0])],
        ["030", "044"]⟩ : BuildResult).F_cols.length ∧
    (∀ j, j < (⟨⟨2, [[0, 0]]⟩, ["cmb"], [("cmb", [0, 0])],
        ["030", "044"]⟩ : BuildResult).F_cols.length →
      (⟨⟨2, [[0, 0]]⟩, ["cmb"], [("cmb", [0, 0])],
          ["030", "044"]⟩ : BuildResult).reference_vectors.lookup
          ((⟨⟨2, [[0, 0]]⟩, ["cmb"], [("cmb", [0, 0])],
            ["030", "044"]⟩ : BuildResult).F_cols.getD j "") =
        some ((⟨⟨2, [[0, 0]]⟩, ["cmb"], [("cmb", [0, 0])],
          ["030", "044"]⟩ : BuildResult).F.cols.getD j []) ∧
      ((⟨⟨2, [[0, 0]]⟩, ["cmb"], [("cmb", [0, 0])],
          ["030", "044"]⟩ : BuildResult).F.cols.getD j []).length =
        (⟨⟨2, [[0, 0]]⟩, ["cmb"], [("cmb", [0, 0])],
          ["030", "044"]⟩ : BuildResult).frequencies_out.length) :=
  claim_C8.2 ⟨fun _ => false, fun _ _ => 0⟩ "base"
    [("cmb", some (fun f _ => f))] ["030", "044"] 0 "" none _ (by rfl)

end Skyclean
